import Mathlib

/-!
Verification of the hybrid retrieval subsystem of the Knowledge-Base
Self-Hosting Kit backend.

The development shallowly embeds the Python sources:
  * `backend/src/core/retrievers/enhanced_hybrid_retriever.py`
    (weighted Reciprocal Rank Fusion),
  * `backend/src/core/query_engine.py` (multi-collection query
    orchestration, result merging, relevance filtering, vector fallback),
  * `backend/src/core/bm25_index.py` (lexical index upsert and the BM25
    tokenizer).

Python floats are modelled as exact rationals (`ℚ`); machine rounding is
outside the scope of the stated claims.  Python's `sorted(key=..,
reverse=True)` is a stable sort by descending key; it is modelled by
`stableSortDesc`, which sorts index-decorated elements by the total order
"larger key first, original position as tie-break" — extensionally the
same list as CPython produces.
-/

/-- The total order used to model Python's stable descending sort: an
element comes first if its key is larger, with the original list position
breaking ties. -/
def pyOrd {β : Type} (f : β → ℚ) (a b : Nat × β) : Prop :=
  f b.2 < f a.2 ∨ (f a.2 = f b.2 ∧ a.1 ≤ b.1)

instance {β : Type} (f : β → ℚ) : DecidableRel (pyOrd f) := fun a b => by
  unfold pyOrd; infer_instance

instance {β : Type} (f : β → ℚ) : IsTotal (Nat × β) (pyOrd f) := by
  constructor
  intro a b
  rcases lt_trichotomy (f a.2) (f b.2) with h | h | h
  · exact Or.inr (Or.inl h)
  · rcases Nat.le_total a.1 b.1 with hn | hn
    · exact Or.inl (Or.inr ⟨h, hn⟩)
    · exact Or.inr (Or.inr ⟨h.symm, hn⟩)
  · exact Or.inl (Or.inl h)

instance {β : Type} (f : β → ℚ) : IsTrans (Nat × β) (pyOrd f) := by
  constructor
  intro a b c hab hbc
  rcases hab with h1 | ⟨h1, i1⟩
  · rcases hbc with h2 | ⟨h2, _⟩
    · exact Or.inl (h2.trans h1)
    · exact Or.inl (h2 ▸ h1)
  · rcases hbc with h2 | ⟨h2, i2⟩
    · exact Or.inl (lt_of_lt_of_le h2 (le_of_eq h1.symm))
    · exact Or.inr ⟨h1.trans h2, i1.trans i2⟩

/-- Model of Python's `sorted(l, key=f, reverse=True)`: stable sort by
descending key, realised by totally ordering the index-decorated list. -/
def stableSortDesc {β : Type} (f : β → ℚ) (l : List β) : List β :=
  (List.insertionSort (pyOrd f) l.enum).map Prod.snd

theorem stableSortDesc_perm {β : Type} (f : β → ℚ) (l : List β) :
    (stableSortDesc f l).Perm l := by
  have h1 : (List.insertionSort (pyOrd f) l.enum).Perm l.enum :=
    List.perm_insertionSort _ _
  have h2 := h1.map Prod.snd
  rwa [List.enum_map_snd] at h2

theorem stableSortDesc_pairwise {β : Type} (f : β → ℚ) (l : List β) :
    (stableSortDesc f l).Pairwise (fun a b => f b ≤ f a) := by
  have hs : (List.insertionSort (pyOrd f) l.enum).Pairwise (pyOrd f) :=
    List.sorted_insertionSort (pyOrd f) l.enum
  unfold stableSortDesc
  rw [List.pairwise_map]
  refine hs.imp ?_
  intro a b hab
  rcases hab with h | ⟨h, _⟩
  · exact le_of_lt h
  · exact le_of_eq h.symm

/-- Helper: `filter` and `map` commute in the usual way. -/
theorem filter_map_comm {γ β : Type} (g : γ → β) (p : β → Bool) :
    ∀ L : List γ, (L.map g).filter p = (L.filter (fun q => p (g q))).map g := by
  intro L
  induction L with
  | nil => rfl
  | cons a t ih =>
      by_cases h : p (g a)
      · simp [List.filter_cons, h, ih]
      · simp [List.filter_cons, h, ih]

theorem enumFrom_fst_ge {β : Type} :
    ∀ (n : Nat) (l : List β) (q : Nat × β), q ∈ l.enumFrom n → n ≤ q.1 := by
  intro n l
  induction l generalizing n with
  | nil => intro q h; cases h
  | cons a t ih =>
      intro q h
      simp only [List.enumFrom] at h
      cases h with
      | head => exact Nat.le_refl n
      | tail _ h2 =>
          exact Nat.le_of_lt (Nat.lt_of_lt_of_le (Nat.lt_succ_self n) (ih (n + 1) q h2))

theorem enumFrom_fst_pairwise {β : Type} :
    ∀ (n : Nat) (l : List β), (l.enumFrom n).Pairwise (fun q q' => q.1 < q'.1) := by
  intro n l
  induction l generalizing n with
  | nil => exact List.Pairwise.nil
  | cons a t ih =>
      refine List.Pairwise.cons ?_ (ih (n + 1))
      intro q hq
      exact Nat.lt_of_lt_of_le (Nat.lt_succ_self n) (enumFrom_fst_ge (n + 1) t q hq)

theorem enum_fst_pairwise {β : Type} (l : List β) :
    l.enum.Pairwise (fun q q' => q.1 < q'.1) :=
  enumFrom_fst_pairwise 0 l

/-- Stability of the modelled Python sort: for every key value `v`, the
elements whose key equals `v` appear in the sorted output in exactly the
order they had in the input. -/
theorem stableSortDesc_filter_key {β : Type} (f : β → ℚ) (l : List β) (v : ℚ) :
    (stableSortDesc f l).filter (fun x => f x = v)
      = l.filter (fun x => f x = v) := by
  unfold stableSortDesc
  rw [filter_map_comm]
  have hperm : ((List.insertionSort (pyOrd f) l.enum).filter
      (fun q => decide (f q.2 = v))).Perm
      (l.enum.filter (fun q => decide (f q.2 = v))) :=
    (List.perm_insertionSort (pyOrd f) l.enum).filter _
  have horig : (l.enum.filter (fun q => decide (f q.2 = v))).Pairwise
      (fun q q' => q.1 < q'.1) :=
    (enum_fst_pairwise l).filter _
  have hsub0 : ((List.insertionSort (pyOrd f) l.enum).filter
      (fun q => decide (f q.2 = v))).Pairwise (pyOrd f) :=
    (List.sorted_insertionSort (pyOrd f) l.enum).filter _
  -- elements kept by the filter all have key `v`, so `pyOrd` degenerates
  -- to comparison of the original positions
  have hsub1 : ((List.insertionSort (pyOrd f) l.enum).filter
      (fun q => decide (f q.2 = v))).Pairwise (fun q q' => q.1 ≤ q'.1) := by
    refine List.Pairwise.imp_of_mem ?_ hsub0
    intro a b ha hb hab
    have hfa : f a.2 = v := by
      have := List.of_mem_filter ha
      exact of_decide_eq_true this
    have hfb : f b.2 = v := by
      have := List.of_mem_filter hb
      exact of_decide_eq_true this
    rcases hab with h | ⟨_, h⟩
    · rw [hfa, hfb] at h
      exact absurd h (lt_irrefl v)
    · exact h
  have hnodup : (((List.insertionSort (pyOrd f) l.enum).filter
      (fun q => decide (f q.2 = v))).map Prod.fst).Nodup := by
    have h1 : ((l.enum.filter (fun q => decide (f q.2 = v))).map Prod.fst).Nodup := by
      have hsl : (l.enum.filter (fun q => decide (f q.2 = v))).Sublist l.enum :=
        List.filter_sublist _
      exact (List.nodup_enum_map_fst l).sublist (hsl.map Prod.fst)
    exact ((hperm.map Prod.fst).nodup_iff).mpr h1
  have hsubne : ((List.insertionSort (pyOrd f) l.enum).filter
      (fun q => decide (f q.2 = v))).Pairwise (fun q q' => q.1 ≠ q'.1) :=
    List.pairwise_map.mp hnodup
  have hsublt : ((List.insertionSort (pyOrd f) l.enum).filter
      (fun q => decide (f q.2 = v))).Pairwise (fun q q' => q.1 < q'.1) :=
    (hsub1.and hsubne).imp (fun h => Nat.lt_of_le_of_ne h.1 h.2)
  haveI : IsAntisymm (Nat × β) (fun q q' => q.1 < q'.1) :=
    ⟨fun a b h h' => absurd h' (Nat.lt_asymm h)⟩
  have heq : (List.insertionSort (pyOrd f) l.enum).filter
      (fun q => decide (f q.2 = v)) = l.enum.filter (fun q => decide (f q.2 = v)) :=
    List.eq_of_perm_of_sorted hperm hsublt horig
  rw [heq]
  have h3 := filter_map_comm Prod.snd (fun x => decide (f x = v)) l.enum
  rw [List.enum_map_snd] at h3
  exact h3.symm

/-- Two lists that are sorted by descending key and agree on every
per-key-value fibre are equal. -/
theorem sortedDesc_ext {β : Type} (f : β → ℚ) :
    ∀ (m1 m2 : List β), m1.Pairwise (fun a b => f b ≤ f a) →
      m2.Pairwise (fun a b => f b ≤ f a) →
      (∀ v : ℚ, m1.filter (fun x => f x = v) = m2.filter (fun x => f x = v)) →
      m1 = m2 := by
  intro m1
  induction m1 with
  | nil =>
      intro m2 _ _ hv
      cases m2 with
      | nil => rfl
      | cons b t2 =>
          have h := hv (f b)
          simp [List.filter_cons] at h
  | cons a t1 ih =>
      intro m2 h1 h2 hv
      cases m2 with
      | nil =>
          have h := hv (f a)
          simp [List.filter_cons] at h
      | cons b t2 =>
          have hamem : a ∈ b :: t2 := by
            have h := hv (f a)
            have : a ∈ (b :: t2).filter (fun x => decide (f x = f a)) := by
              rw [← h]
              simp [List.filter_cons]
            exact (List.mem_filter.mp this).1
          have hbmem : b ∈ a :: t1 := by
            have h := hv (f b)
            have : b ∈ (a :: t1).filter (fun x => decide (f x = f b)) := by
              rw [h]
              simp [List.filter_cons]
            exact (List.mem_filter.mp this).1
          have hab : f a = f b := by
            have hle1 : f a ≤ f b := by
              rcases List.mem_cons.mp hamem with h | h
              · rw [h]
              · exact List.rel_of_pairwise_cons h2 h
            have hle2 : f b ≤ f a := by
              rcases List.mem_cons.mp hbmem with h | h
              · rw [h]
              · exact List.rel_of_pairwise_cons h1 h
            exact le_antisymm hle1 hle2
          have hhead := hv (f a)
          rw [List.filter_cons, List.filter_cons] at hhead
          rw [if_pos (by simp), if_pos (by simp [hab])] at hhead
          have hae : a = b := by
            exact (List.cons.injEq _ _ _ _).mp hhead |>.1
          have htail : ∀ v : ℚ, t1.filter (fun x => f x = v) = t2.filter (fun x => f x = v) := by
            intro v
            by_cases hveq : v = f a
            · subst hveq
              exact (List.cons.injEq _ _ _ _).mp hhead |>.2
            · have h := hv v
              rw [List.filter_cons, List.filter_cons] at h
              rw [if_neg (by simp only [decide_eq_true_eq]; exact fun hc => hveq hc.symm),
                  if_neg (by simp only [decide_eq_true_eq]; exact fun hc => hveq (hab.trans hc).symm)] at h
              exact h
          rw [hae, ih t2 (List.pairwise_cons.mp h1).2 (List.pairwise_cons.mp h2).2 htail]

/-- On a list sorted by descending key, truncation and a "key at least `t`"
filter commute: the filter keeps a prefix, so slicing first changes
nothing. -/
theorem filter_take_of_sortedDesc {β : Type} (f : β → ℚ) (t : ℚ) :
    ∀ (l : List β) (k : Nat), l.Pairwise (fun a b => f b ≤ f a) →
      (l.take k).filter (fun x => t ≤ f x)
        = (l.filter (fun x => t ≤ f x)).take k := by
  intro l
  induction l with
  | nil => intro k _; simp
  | cons a l2 ih =>
      intro k hp
      cases k with
      | zero => simp
      | succ k2 =>
          rw [List.take_succ_cons, List.filter_cons, List.filter_cons]
          by_cases h : t ≤ f a
          · rw [if_pos (by simpa using h), if_pos (by simpa using h),
              List.take_succ_cons, ih k2 (List.pairwise_cons.mp hp).2]
          · have hlt : f a < t := lt_of_not_le h
            have hall : ∀ x ∈ l2, ¬(decide (t ≤ f x) = true) := by
              intro x hx
              simp only [decide_eq_true_eq]
              intro hc
              exact absurd (lt_of_le_of_lt ((List.pairwise_cons.mp hp).1 x hx) hlt)
                (not_lt.mpr hc)
            have e1 : l2.filter (fun x => t ≤ f x) = [] :=
              List.filter_eq_nil_iff.mpr hall
            have e2 : (l2.take k2).filter (fun x => t ≤ f x) = [] :=
              List.filter_eq_nil_iff.mpr
                (fun x hx => hall x (List.mem_of_mem_take hx))
            rw [if_neg (by simpa using h), if_neg (by simpa using h), e1, e2]
            simp

/-- The modelled stable sort commutes with a "key at least `t`" filter. -/
theorem stableSortDesc_filter_comm {β : Type} (f : β → ℚ) (t : ℚ) (l : List β) :
    stableSortDesc f (l.filter (fun x => t ≤ f x))
      = (stableSortDesc f l).filter (fun x => t ≤ f x) := by
  refine sortedDesc_ext f _ _ (stableSortDesc_pairwise f _)
    ((stableSortDesc_pairwise f l).filter _) ?_
  intro v
  rw [stableSortDesc_filter_key, List.filter_filter, List.filter_filter]
  by_cases hv : t ≤ v
  · have hcong : ∀ L : List β,
        L.filter (fun x => decide (f x = v) && decide (t ≤ f x))
          = L.filter (fun x => f x = v) := by
      intro L
      refine List.filter_congr ?_
      intro x _
      by_cases hx : f x = v
      · simp [hx, hv]
      · simp [hx]
    rw [hcong, hcong, stableSortDesc_filter_key]
  · have hcong : ∀ L : List β,
        L.filter (fun x => decide (f x = v) && decide (t ≤ f x))
          = L.filter (fun _ => false) := by
      intro L
      refine List.filter_congr ?_
      intro x _
      by_cases hx : f x = v
      · simp [hx, hv]
      · simp [hx]
    rw [hcong, hcong, List.filter_false, List.filter_false]

/-!
Section: EnhancedHybridRetriever (`enhanced_hybrid_retriever.py`)

Nodes are represented by their fusion identity: the `node_id`, or the md5
hex digest of the content when no id exists (line 110-115 of the source).
Either way fusion handles an opaque key, modelled by a type `α` with
decidable equality.  Scores are exact rationals.
-/

/-- One iteration of the inner loop of `_fuse_results`: create the
`fused_scores[node_id]` entry with score `0.0` if the key is absent
(appending at the end, as a Python dict preserves insertion order) and add
the contribution `c` to its score. -/
def addContribution {α : Type} [DecidableEq α] (acc : List (α × ℚ)) (key : α) (c : ℚ) :
    List (α × ℚ) :=
  match acc with
  | [] => [(key, c)]
  | (k0, s0) :: rest =>
      if k0 = key then (k0, s0 + c) :: rest
      else (k0, s0) :: addContribution rest key c

/-- Model of `for rank, node_with_score in enumerate(results)`: fold one
sub-retriever's ranked list into the accumulator, starting at rank `rank`
with weight `w`; the contribution of the rank-`rank` item is
`w * (1 / (rank + K))` (line 125 of the source). -/
def fuseList {α : Type} [DecidableEq α] (K w : ℚ) : Nat → List α → List (α × ℚ) → List (α × ℚ)
  | _, [], acc => acc
  | rank, x :: xs, acc =>
      fuseList K w (rank + 1) xs (addContribution acc x (w * (1 / ((rank : ℚ) + K))))

/-- The insertion-ordered association list `fused_scores` built by the
outer loop of `_fuse_results` over `zip(results_per_retriever,
self.weights)`. -/
def fuseAccum {α : Type} [DecidableEq α] (K : ℚ) (lists : List (List α)) (ws : List ℚ) :
    List (α × ℚ) :=
  (lists.zip ws).foldl (fun acc lw => fuseList K lw.2 0 lw.1 acc) []

/-- Model of `_fuse_results`: accumulate weighted reciprocal-rank contributions and
sort the entries by descending fused score (`sorted(..., reverse=True)`,
which is stable). -/
def fuse_results {α : Type} [DecidableEq α] (K : ℚ) (lists : List (List α)) (ws : List ℚ) :
    List (α × ℚ) :=
  if lists.isEmpty then [] else stableSortDesc (fun p => p.2) (fuseAccum K lists ws)

/-- The loop in `_aretrieve`/`_retrieve` that replaces a failed
sub-retriever's outcome by the empty result list. -/
def processedResults {α : Type} (outcomes : List (Except Unit (List α))) : List (List α) :=
  outcomes.map (fun o => match o with | .ok r => r | .error _ => [])

/-- Model of `_retrieve` and `_aretrieve`: empty retriever list short-circuits to `[]`;
otherwise failed sub-retrievers are replaced by `[]`, the results are
fused, and the fused list is truncated to `top_k`. -/
def retrieveModel {α : Type} [DecidableEq α] (K : ℚ) (topK : Nat)
    (outcomes : List (Except Unit (List α))) (ws : List ℚ) : List (α × ℚ) :=
  if outcomes.isEmpty then []
  else (fuse_results K (processedResults outcomes) ws).take topK

/-- The score the specification ascribes to a key: the sum, over the
sub-retrievers that returned it, of `weight * 1/(rank + K)` with `rank`
the key's zero-based rank in that sub-retriever's list. -/
def rrfScore {α : Type} [DecidableEq α] (K : ℚ) (lists : List (List α)) (ws : List ℚ)
    (key : α) : ℚ :=
  ((lists.zip ws).map
    (fun lw => if key ∈ lw.1 then lw.2 * (1 / ((lw.1.indexOf key : ℚ) + K)) else 0)).sum

/-- The score stored for `key` in the accumulator (`0` when absent),
reading the first matching entry like a Python dict lookup. -/
def scoreOf {α : Type} [DecidableEq α] (acc : List (α × ℚ)) (key : α) : ℚ :=
  match acc.find? (fun p => p.1 = key) with
  | some p => p.2
  | none => 0

theorem scoreOf_nil {α : Type} [DecidableEq α] (key : α) : scoreOf [] key = 0 := rfl

theorem scoreOf_addContribution {α : Type} [DecidableEq α] (acc : List (α × ℚ))
    (key k' : α) (c : ℚ) :
    scoreOf (addContribution acc key c) k'
      = scoreOf acc k' + (if k' = key then c else 0) := by
  induction acc with
  | nil =>
      by_cases h : k' = key
      · simp [addContribution, scoreOf, List.find?_cons, h]
      · simp [addContribution, scoreOf, List.find?_cons, h, Ne.symm h]
  | cons p rest ih =>
      obtain ⟨k0, s0⟩ := p
      by_cases h0 : k0 = key
      · subst h0
        by_cases h1 : k' = k0
        · subst h1
          simp [addContribution, scoreOf, List.find?_cons]
        · simp [addContribution, scoreOf, List.find?_cons, h1, Ne.symm h1]
      · by_cases h1 : k' = k0
        · subst h1
          simp [addContribution, scoreOf, List.find?_cons, h0,
            fun hc : k' = key => h0 (hc ▸ rfl)]
        · simp only [addContribution, if_neg h0]
          have hstep : ∀ L : List (α × ℚ), scoreOf ((k0, s0) :: L) k' = scoreOf L k' := by
            intro L
            simp only [scoreOf, List.find?_cons,
              decide_eq_false (fun hc : k0 = k' => h1 hc.symm)]
          rw [hstep, hstep]
          exact ih

theorem addContribution_keys {α : Type} [DecidableEq α] (acc : List (α × ℚ)) (key : α) (c : ℚ) :
    (addContribution acc key c).map Prod.fst
      = if key ∈ acc.map Prod.fst then acc.map Prod.fst
        else acc.map Prod.fst ++ [key] := by
  induction acc with
  | nil => simp [addContribution]
  | cons p rest ih =>
      obtain ⟨k0, s0⟩ := p
      by_cases h0 : k0 = key
      · subst h0
        simp [addContribution]
      · simp only [addContribution, if_neg h0, List.map_cons, List.mem_cons]
        rw [ih]
        by_cases hmem : key ∈ rest.map Prod.fst
        · rw [if_pos hmem, if_pos (Or.inr hmem)]
        · rw [if_neg hmem, if_neg ?_, List.cons_append]
          intro hc
          rcases hc with hc | hc
          · exact h0 hc.symm
          · exact hmem hc

theorem addContribution_nodup {α : Type} [DecidableEq α] (acc : List (α × ℚ)) (key : α) (c : ℚ)
    (h : (acc.map Prod.fst).Nodup) : ((addContribution acc key c).map Prod.fst).Nodup := by
  rw [addContribution_keys]
  by_cases hmem : key ∈ acc.map Prod.fst
  · rw [if_pos hmem]; exact h
  · rw [if_neg hmem]
    rw [List.nodup_append]
    refine ⟨h, List.nodup_singleton key, ?_⟩
    intro x hx hx1
    rw [List.mem_singleton] at hx1
    exact hmem (hx1 ▸ hx)

theorem scoreOf_mem {α : Type} [DecidableEq α] :
    ∀ (acc : List (α × ℚ)), (acc.map Prod.fst).Nodup →
      ∀ p ∈ acc, scoreOf acc p.1 = p.2 := by
  intro acc
  induction acc with
  | nil => intro _ p hp; cases hp
  | cons q rest ih =>
      obtain ⟨k0, s0⟩ := q
      intro hnd p hp
      rcases List.mem_cons.mp hp with h | h
      · subst h
        simp [scoreOf, List.find?_cons]
      · have hk : k0 ≠ p.1 := by
          intro hc
          have : p.1 ∈ rest.map Prod.fst := List.mem_map_of_mem Prod.fst h
          rw [← hc] at this
          exact (List.nodup_cons.mp (by simpa using hnd)).1 this
        have hstep : scoreOf ((k0, s0) :: rest) p.1 = scoreOf rest p.1 := by
          simp only [scoreOf, List.find?_cons, decide_eq_false hk]
        rw [hstep]
        exact ih (List.nodup_cons.mp (by simpa using hnd)).2 p h

theorem scoreOf_fuseList {α : Type} [DecidableEq α] (K w : ℚ) :
    ∀ (xs : List α) (r : Nat) (acc : List (α × ℚ)) (k' : α), xs.Nodup →
      scoreOf (fuseList K w r xs acc) k'
        = scoreOf acc k'
          + (if k' ∈ xs then w * (1 / ((r : ℚ) + (xs.indexOf k' : ℚ) + K)) else 0) := by
  intro xs
  induction xs with
  | nil => intro r acc k' _; simp [fuseList]
  | cons x xs2 ih =>
      intro r acc k' hnd
      simp only [fuseList]
      rw [ih (r + 1) _ k' (List.nodup_cons.mp hnd).2, scoreOf_addContribution]
      by_cases hx : k' = x
      · subst hx
        have hnotmem : k' ∉ xs2 := (List.nodup_cons.mp hnd).1
        rw [if_pos rfl, if_neg hnotmem, if_pos (List.mem_cons_self k' xs2),
          List.indexOf_cons_self]
        push_cast
        ring
      · rw [if_neg hx]
        by_cases hmem : k' ∈ xs2
        · rw [if_pos hmem, if_pos (List.mem_cons.mpr (Or.inr hmem)),
            List.indexOf_cons_ne xs2 (fun hc => hx hc.symm)]
          push_cast
          ring_nf
        · rw [if_neg hmem, if_neg ?_]
          · ring
          · intro hc
            rcases List.mem_cons.mp hc with h | h
            · exact hx h
            · exact hmem h

theorem scoreOf_foldFuse {α : Type} [DecidableEq α] (K : ℚ) :
    ∀ (ps : List (List α × ℚ)) (acc : List (α × ℚ)) (k' : α),
      (∀ lw ∈ ps, lw.1.Nodup) →
      scoreOf (ps.foldl (fun acc lw => fuseList K lw.2 0 lw.1 acc) acc) k'
        = scoreOf acc k'
          + (ps.map (fun lw =>
              if k' ∈ lw.1 then lw.2 * (1 / ((lw.1.indexOf k' : ℚ) + K)) else 0)).sum := by
  intro ps
  induction ps with
  | nil => intro acc k' _; simp
  | cons p ps2 ih =>
      intro acc k' hnd
      rw [List.foldl_cons, ih _ k' (fun lw h => hnd lw (List.mem_cons.mpr (Or.inr h))),
        scoreOf_fuseList K p.2 p.1 0 acc k' (hnd p (List.mem_cons_self p ps2)),
        List.map_cons, List.sum_cons]
      push_cast
      rw [add_assoc]
      simp only [zero_add]

theorem fuseList_keys_nodup {α : Type} [DecidableEq α] (K w : ℚ) :
    ∀ (xs : List α) (r : Nat) (acc : List (α × ℚ)),
      (acc.map Prod.fst).Nodup → ((fuseList K w r xs acc).map Prod.fst).Nodup := by
  intro xs
  induction xs with
  | nil => intro r acc h; exact h
  | cons x xs2 ih =>
      intro r acc h
      exact ih (r + 1) _ (addContribution_nodup acc x _ h)

theorem foldFuse_keys_nodup {α : Type} [DecidableEq α] (K : ℚ) :
    ∀ (ps : List (List α × ℚ)) (acc : List (α × ℚ)),
      (acc.map Prod.fst).Nodup →
      ((ps.foldl (fun acc lw => fuseList K lw.2 0 lw.1 acc) acc).map Prod.fst).Nodup := by
  intro ps
  induction ps with
  | nil => intro acc h; exact h
  | cons p ps2 ih =>
      intro acc h
      exact ih _ (fuseList_keys_nodup K p.2 p.1 0 acc h)

theorem fuseAccum_keys_nodup {α : Type} [DecidableEq α] (K : ℚ)
    (lists : List (List α)) (ws : List ℚ) :
    ((fuseAccum K lists ws).map Prod.fst).Nodup :=
  foldFuse_keys_nodup K (lists.zip ws) [] List.nodup_nil

/-- Every entry of the `fused_scores` accumulator carries exactly the
specification's weighted-RRF score for its key. -/
theorem fuseAccum_score {α : Type} [DecidableEq α] (K : ℚ)
    (lists : List (List α)) (ws : List ℚ) (hnd : ∀ l ∈ lists, l.Nodup) :
    ∀ p ∈ fuseAccum K lists ws, p.2 = rrfScore K lists ws p.1 := by
  intro p hp
  have h1 : scoreOf (fuseAccum K lists ws) p.1 = p.2 :=
    scoreOf_mem _ (fuseAccum_keys_nodup K lists ws) p hp
  have h2 := scoreOf_foldFuse K (lists.zip ws) [] p.1
    (fun lw hlw => hnd lw.1 (List.of_mem_zip (by exact hlw)).1)
  rw [scoreOf_nil, zero_add] at h2
  rw [← h1]
  exact h2.trans rfl

/-- C1. For every list of sub-retriever result lists (each without
duplicate keys, so that "the item's rank" is well defined) and matching
non-negative weights, with RRF constant `K` (the source's default is
`k = 60`): every entry of the truncated fused output scores its key as the
sum over sub-retrievers that returned it of `weight * 1/(rank + K)`; the
output is ordered by descending fused score; ties (entries with the same
fused score) appear in stable first-seen order, i.e. as a prefix of the
first-seen accumulator restricted to that score; and the output holds at
most `topK` items. -/
theorem C1_weighted_rrf_fusion {α : Type} [DecidableEq α] (K : ℚ) (topK : Nat)
    (lists : List (List α)) (ws : List ℚ)
    (hK : 0 < K) (hlen : ws.length = lists.length)
    (hw : ∀ w ∈ ws, 0 ≤ w) (hnd : ∀ l ∈ lists, l.Nodup) :
    (∀ p ∈ (fuse_results K lists ws).take topK, p.2 = rrfScore K lists ws p.1) ∧
    ((fuse_results K lists ws).take topK).Pairwise (fun a b => b.2 ≤ a.2) ∧
    (∀ v : ℚ, ∃ rest, (fuseAccum K lists ws).filter (fun p => p.2 = v)
        = (((fuse_results K lists ws).take topK).filter (fun p => p.2 = v)) ++ rest) ∧
    ((fuse_results K lists ws).take topK).length ≤ topK := by
  by_cases he : lists.isEmpty
  · have hl : lists = [] := List.isEmpty_iff.mp he
    subst hl
    refine ⟨?_, ?_, ?_, ?_⟩
    · intro p hp
      simp [fuse_results] at hp
    · simp [fuse_results]
    · intro v
      refine ⟨[], ?_⟩
      simp [fuse_results, fuseAccum]
    · simp [fuse_results]
  · have hunfold : fuse_results K lists ws
        = stableSortDesc (fun p => p.2) (fuseAccum K lists ws) := by
      simp only [fuse_results, if_neg he]
    refine ⟨?_, ?_, ?_, ?_⟩
    · intro p hp
      have hp2 : p ∈ fuse_results K lists ws := List.mem_of_mem_take hp
      rw [hunfold] at hp2
      have hp3 : p ∈ fuseAccum K lists ws :=
        (stableSortDesc_perm (fun p => p.2) _).mem_iff.mp hp2
      exact fuseAccum_score K lists ws hnd p hp3
    · rw [hunfold]
      exact List.Pairwise.sublist (List.take_sublist _ _)
        (stableSortDesc_pairwise (fun p => p.2) (fuseAccum K lists ws))
    · intro v
      rw [hunfold]
      refine ⟨((stableSortDesc (fun p => p.2) (fuseAccum K lists ws)).drop topK).filter
        (fun p => p.2 = v), ?_⟩
      rw [← List.filter_append, List.take_append_drop]
      exact (stableSortDesc_filter_key (fun p => p.2) (fuseAccum K lists ws) v).symm
    · exact List.length_take_le _ _

/-- Witness for C1 at a concrete input: two sub-retrievers with the
factory's default weights `[0.7, 0.3]`, `k = 60`, `top_k = 10`. -/
theorem C1_weighted_rrf_fusion_witness :
    ((0:ℚ) < 60 ∧ ([(7:ℚ)/10, 3/10] : List ℚ).length = [["a","b"],["b"]].length ∧
      (∀ w ∈ ([(7:ℚ)/10, 3/10] : List ℚ), 0 ≤ w) ∧
      (∀ l ∈ [["a","b"],["b"]], l.Nodup)) ∧
    ((∀ p ∈ (fuse_results 60 [["a","b"],["b"]] [(7:ℚ)/10, 3/10]).take 10,
        p.2 = rrfScore 60 [["a","b"],["b"]] [(7:ℚ)/10, 3/10] p.1) ∧
      ((fuse_results 60 [["a","b"],["b"]] [(7:ℚ)/10, 3/10]).take 10).Pairwise
        (fun a b => b.2 ≤ a.2) ∧
      (∀ v : ℚ, ∃ rest,
        (fuseAccum 60 [["a","b"],["b"]] [(7:ℚ)/10, 3/10]).filter (fun p => p.2 = v)
          = (((fuse_results 60 [["a","b"],["b"]] [(7:ℚ)/10, 3/10]).take 10).filter
              (fun p => p.2 = v)) ++ rest) ∧
      ((fuse_results 60 [["a","b"],["b"]] [(7:ℚ)/10, 3/10]).take 10).length ≤ 10) :=
  ⟨⟨by norm_num, rfl, by intro w hw; fin_cases hw <;> norm_num, by decide⟩,
    C1_weighted_rrf_fusion 60 10 [["a","b"],["b"]] [(7:ℚ)/10, 3/10]
      (by norm_num) rfl (by intro w hw; fin_cases hw <;> norm_num) (by decide)⟩

/-- The (result list, weight) pairs of the sub-retrievers whose invocation
succeeded, weights kept aligned positionally as `zip(results, weights)`
does in the source. -/
def okPairs {α : Type} (outcomes : List (Except Unit (List α))) (ws : List ℚ) :
    List (List α × ℚ) :=
  (outcomes.zip ws).filterMap
    (fun p => match p.1 with | .ok r => some (r, p.2) | .error _ => none)

theorem zip_map_fst_snd_eq {γ δ : Type} :
    ∀ P : List (γ × δ), (P.map Prod.fst).zip (P.map Prod.snd) = P := by
  intro P
  induction P with
  | nil => rfl
  | cons p rest ih => simp [ih]

theorem foldFuse_processed {α : Type} [DecidableEq α] (K : ℚ) :
    ∀ (outcomes : List (Except Unit (List α))) (ws : List ℚ) (acc : List (α × ℚ)),
      ((processedResults outcomes).zip ws).foldl
          (fun acc lw => fuseList K lw.2 0 lw.1 acc) acc
        = (okPairs outcomes ws).foldl (fun acc lw => fuseList K lw.2 0 lw.1 acc) acc := by
  intro outcomes
  induction outcomes with
  | nil => intro ws acc; rfl
  | cons o rest ih =>
      intro ws acc
      cases ws with
      | nil => simp [processedResults, okPairs]
      | cons w wrest =>
          cases o with
          | ok r =>
              simp only [processedResults, List.map_cons, List.zip_cons_cons,
                List.foldl_cons, okPairs, List.filterMap_cons]
              exact ih wrest _
          | error e =>
              simp only [processedResults, List.map_cons, List.zip_cons_cons,
                List.foldl_cons, okPairs, List.filterMap_cons]
              show ((rest.map _).zip wrest).foldl _ (fuseList K w 0 [] acc) = _
              exact ih wrest _

theorem okPairs_nil_of_all_error {α : Type} :
    ∀ (outcomes : List (Except Unit (List α))) (ws : List ℚ),
      (∀ o ∈ outcomes, o = Except.error ()) → okPairs outcomes ws = [] := by
  intro outcomes
  induction outcomes with
  | nil => intro ws _; rfl
  | cons o rest ih =>
      intro ws hall
      cases ws with
      | nil => rfl
      | cons w wrest =>
          have ho : o = Except.error () := hall o (List.mem_cons_self o rest)
          subst ho
          simp only [okPairs, List.zip_cons_cons, List.filterMap_cons]
          exact ih wrest (fun o h => hall o (List.mem_cons.mpr (Or.inr h)))

/-- C3. A failing sub-retriever is treated as the empty list: the
retrieve result equals what fusion yields from the successful
sub-retrievers alone (each keeping its own weight), and when every
sub-retriever fails the result is the empty list.  `retrieveModel` is a
total function, reflecting that `_retrieve`/`_aretrieve` catch every
sub-retriever exception instead of propagating it. -/
theorem C3_failed_subretrievers_ignored {α : Type} [DecidableEq α] (K : ℚ) (topK : Nat)
    (outcomes : List (Except Unit (List α))) (ws : List ℚ) :
    retrieveModel K topK outcomes ws
        = retrieveModel K topK ((okPairs outcomes ws).map (fun p => Except.ok p.1))
            ((okPairs outcomes ws).map Prod.snd) ∧
    ((∀ o ∈ outcomes, o = Except.error ()) → retrieveModel K topK outcomes ws = []) := by
  have haccum : fuseAccum K (processedResults outcomes) ws
      = fuseAccum K (processedResults ((okPairs outcomes ws).map (fun p => Except.ok p.1)))
          ((okPairs outcomes ws).map Prod.snd) := by
    unfold fuseAccum
    rw [foldFuse_processed]
    have hproc : processedResults ((okPairs outcomes ws).map
        (fun p : List α × ℚ => Except.ok p.1)) = (okPairs outcomes ws).map Prod.fst := by
      unfold processedResults
      rw [List.map_map]
      rfl
    rw [hproc, zip_map_fst_snd_eq]
  constructor
  · by_cases ho : outcomes.isEmpty
    · have : outcomes = [] := List.isEmpty_iff.mp ho
      subst this
      rfl
    · by_cases hok : (okPairs outcomes ws).isEmpty
      · have hnil : okPairs outcomes ws = [] := List.isEmpty_iff.mp hok
        rw [hnil]
        simp only [retrieveModel, if_neg ho, List.map_nil, List.isEmpty_nil, if_pos rfl]
        have hfold : fuseAccum K (processedResults outcomes) ws = [] := by
          unfold fuseAccum
          rw [foldFuse_processed, hnil]
          rfl
        simp only [fuse_results]
        by_cases hpe : (processedResults outcomes).isEmpty
        · rw [if_pos hpe]
          simp
        · rw [if_neg hpe, hfold]
          simp [stableSortDesc]
      · have hne2 : (((okPairs outcomes ws).map (fun p : List α × ℚ => Except.ok p.1))
            : List (Except Unit (List α))).isEmpty = false := by
          cases h : okPairs outcomes ws with
          | nil => rw [h] at hok; exact absurd rfl hok
          | cons a t => simp
        have hne3 : (processedResults outcomes).isEmpty = false := by
          unfold processedResults
          cases h : outcomes with
          | nil => rw [h] at ho; exact absurd rfl ho
          | cons a t => simp
        have hne4 : (processedResults ((okPairs outcomes ws).map
            (fun p : List α × ℚ => Except.ok p.1))).isEmpty = false := by
          unfold processedResults
          cases h : okPairs outcomes ws with
          | nil => rw [h] at hok; exact absurd rfl hok
          | cons a t => simp
        simp only [retrieveModel, if_neg ho, hne2, Bool.false_eq_true, if_false,
          fuse_results, hne3, hne4, haccum]
  · intro hall
    by_cases ho : outcomes.isEmpty
    · have : outcomes = [] := List.isEmpty_iff.mp ho
      subst this
      rfl
    · have hfold : fuseAccum K (processedResults outcomes) ws = [] := by
        unfold fuseAccum
        rw [foldFuse_processed, okPairs_nil_of_all_error outcomes ws hall]
        rfl
      simp only [retrieveModel, if_neg ho, fuse_results]
      by_cases hpe : (processedResults outcomes).isEmpty
      · rw [if_pos hpe]
        simp
      · rw [if_neg hpe, hfold]
        simp [stableSortDesc]

/-- Witness for C3: two failing sub-retrievers and one succeeding one. -/
theorem C3_failed_subretrievers_ignored_witness :
    (retrieveModel 60 10 [Except.error (), Except.ok ["a"], Except.error ()]
        ([1, 1, 1] : List ℚ)
      = retrieveModel 60 10
          ((okPairs [Except.error (), Except.ok ["a"], Except.error ()]
            ([1, 1, 1] : List ℚ)).map (fun p => Except.ok p.1))
          ((okPairs [Except.error (), Except.ok ["a"], Except.error ()]
            ([1, 1, 1] : List ℚ)).map Prod.snd)) ∧
    ((∀ o ∈ ([Except.error (), Except.error ()] : List (Except Unit (List String))),
        o = Except.error ()) →
      retrieveModel 60 10 ([Except.error (), Except.error ()] :
        List (Except Unit (List String))) ([1, 1] : List ℚ) = []) ∧
    retrieveModel 60 10 ([Except.error (), Except.error ()] :
        List (Except Unit (List String))) ([1, 1] : List ℚ) = [] :=
  ⟨(C3_failed_subretrievers_ignored 60 10 _ _).1,
    (C3_failed_subretrievers_ignored 60 10 _ _).2,
    (C3_failed_subretrievers_ignored 60 10 _ _).2 (by intro o ho; fin_cases ho <;> rfl)⟩

/-!
Section: QueryEngine (`query_engine.py`)

`QueryResult` is the dataclass of the source; metadata is modelled as flat
string pairs (it is never inspected by the engine).
-/

/-- The `QueryResult` dataclass. -/
structure QueryResult where
  content : String
  metadata : List (String × String)
  relevance_score : ℚ
  collection_name : String
  source_type : String
  base_relevance : ℚ
  keyword_boost : ℚ
deriving DecidableEq

/-- One step of building `results_by_collection`: append the result to its
collection's bucket, or open a new bucket at the end (Python dict
preserves insertion order, i.e. first-seen collection order). -/
def addToGroups (gs : List (String × List QueryResult)) (r : QueryResult) :
    List (String × List QueryResult) :=
  match gs with
  | [] => [(r.collection_name, [r])]
  | (c, l) :: rest =>
      if c = r.collection_name then (c, l ++ [r]) :: rest
      else (c, l) :: addToGroups rest r

/-- Model of `results_by_collection` in `_merge_results` (lines 180-184). -/
def groupByCollection (all : List QueryResult) : List (String × List QueryResult) :=
  all.foldl addToGroups []

/-- Model of `max_len = max(len(v) for v in results_by_collection.values())`; the
fold with base `0` agrees with Python's `max` on every non-empty group
list, and the source only evaluates it when the dict is non-empty. -/
def maxLen (groups : List (String × List QueryResult)) : Nat :=
  (groups.map (fun g => g.2.length)).foldl Nat.max 0

/-- The inner `for collection_name in results_by_collection.keys()` loop of
the interleave branch: append the collection's `i`-th result if it exists,
then `break` as soon as `len(merged) >= k`.  Returns the new `merged` and
whether the loop broke. -/
def innerPass (k i : Nat) :
    List (String × List QueryResult) → List QueryResult → List QueryResult × Bool
  | [], merged => (merged, false)
  | g :: rest, merged =>
      let merged2 := match g.2[i]? with
        | some r => merged ++ [r]
        | none => merged
      if k ≤ merged2.length then (merged2, true) else innerPass k i rest merged2

/-- The outer `for i in range(max_len)` loop, with remaining iteration
count as fuel (`interleaveLoop k groups i fuel merged` runs iterations
`i, i+1, …` while fuel lasts). -/
def interleaveLoop (k : Nat) (groups : List (String × List QueryResult)) :
    Nat → Nat → List QueryResult → List QueryResult
  | _, 0, merged => merged
  | i, fuel + 1, merged =>
      let result := innerPass k i groups merged
      if result.2 then result.1 else interleaveLoop k groups (i + 1) fuel result.1

/-- Model of `_merge_results`: empty input short-circuits; `"best"` sorts all
candidates by descending relevance (Python's stable `sort(reverse=True)`)
and slices to `k`; anything else falls into the interleave branch. -/
def merge_results (all_results : List QueryResult) (k : Nat) (merge_strategy : String) :
    List QueryResult :=
  if all_results.isEmpty then []
  else if merge_strategy = "best" then
    (stableSortDesc (fun r => r.relevance_score) all_results).take k
  else
    interleaveLoop k (groupByCollection all_results) 0 (maxLen (groupByCollection all_results)) []

/-- The `i`-th interleave round: one result per collection, in first-seen
collection order, taken from position `i` of each collection's list. -/
def row (groups : List (String × List QueryResult)) (i : Nat) : List QueryResult :=
  groups.filterMap (fun g => g.2[i]?)

/-- The full round-robin sequence the specification describes: round `0`,
then round `1`, … up to the longest collection list. -/
def roundRobinSpec (groups : List (String × List QueryResult)) : List QueryResult :=
  (List.range (maxLen groups)).flatMap (row groups)

/-- Per-collection retrieval outcome as observed by `query`'s gather loop:
a successfully retrieved (or cache-served) unfiltered result list, a
missing collection, an empty collection, a successful vector-only
fallback, or a fallback that itself raised (the exception then reaches
`asyncio.gather`). -/
inductive CollectionOutcome where
  | retrieved (results : List QueryResult)
  | notFound
  | empty
  | fallback (results : List QueryResult)
  | fallbackError
deriving DecidableEq

/-- Model of `_query_single_collection_interface`: every successful path filters by
`res.relevance_score >= min_relevance` before returning (lines 214, 265);
a missing or empty collection returns `[]`; a failed fallback propagates
its exception. -/
def query_single_collection_interface (minRel : ℚ) :
    CollectionOutcome → Except Unit (List QueryResult)
  | .retrieved rs => .ok (rs.filter (fun r => minRel ≤ r.relevance_score))
  | .notFound => .ok []
  | .empty => .ok []
  | .fallback rs => .ok (rs.filter (fun r => minRel ≤ r.relevance_score))
  | .fallbackError => .error ()

/-- The gather loop of `query` (lines 153-162): a collection whose task
raised is logged and skipped, all other result lists are concatenated in
collection order. -/
def gatherResults (minRel : ℚ) (outcomes : List CollectionOutcome) : List QueryResult :=
  outcomes.foldl (fun acc oc =>
    match query_single_collection_interface minRel oc with
    | .ok rs => acc ++ rs
    | .error _ => acc) []

/-- Model of `QueryEngine.query` after the per-collection fan-out: gather, then
merge with `config.n_results` and `config.merge_strategy`. -/
def queryModel (outcomes : List CollectionOutcome) (k : Nat) (minRel : ℚ)
    (strategy : String) : List QueryResult :=
  merge_results (gatherResults minRel outcomes) k strategy

/-- The unfiltered per-collection result lists, concatenated — the
"merge(all per-collection results)" object of the specification's
claim. -/
def rawResults (outcomes : List CollectionOutcome) : List QueryResult :=
  outcomes.foldl (fun acc oc =>
    match oc with
    | .retrieved rs => acc ++ rs
    | .fallback rs => acc ++ rs
    | _ => acc) []

theorem innerPass_eq (k i : Nat) :
    ∀ (gs : List (String × List QueryResult)) (merged : List QueryResult),
      merged.length < k →
      innerPass k i gs merged
        = if k ≤ merged.length + (row gs i).length
          then (merged ++ (row gs i).take (k - merged.length), true)
          else (merged ++ row gs i, false) := by
  intro gs
  induction gs with
  | nil =>
      intro merged hlt
      have hc : ¬ k ≤ merged.length + (row ([] : List (String × List QueryResult)) i).length := by
        simp only [row, List.filterMap_nil, List.length_nil, Nat.add_zero]
        exact Nat.not_le.mpr hlt
      rw [if_neg hc]
      simp [innerPass, row]
  | cons g rest ih =>
      intro merged hlt
      cases hg : g.2[i]? with
      | none =>
          have hrow : row (g :: rest) i = row rest i := by
            simp [row, List.filterMap_cons, hg]
          simp only [innerPass, hg]
          rw [if_neg (Nat.not_le.mpr hlt), ih merged hlt, hrow]
      | some r =>
          have hrow : row (g :: rest) i = r :: row rest i := by
            simp [row, List.filterMap_cons, hg]
          simp only [innerPass, hg]
          by_cases hk : k ≤ (merged ++ [r]).length
          · have hkeq : k = merged.length + 1 := by
              rw [List.length_append, List.length_singleton] at hk
              omega
            rw [if_pos hk, hrow, if_pos (by simp; omega)]
            have : k - merged.length = 1 := by omega
            rw [this, List.take_succ_cons, List.take_zero]
          · have hlt2 : (merged ++ [r]).length < k := Nat.not_le.mp hk
            rw [if_neg hk, ih _ hlt2, hrow]
            have hlen : (merged ++ [r]).length = merged.length + 1 := by
              rw [List.length_append, List.length_singleton]
            by_cases hc : k ≤ merged.length + (r :: row rest i).length
            · rw [if_pos (by rw [hlen]; simp at hc ⊢; omega), if_pos hc]
              have ht : k - merged.length = (k - (merged.length + 1)) + 1 := by
                rw [hlen] at hlt2
                omega
              rw [ht, List.take_succ_cons, List.append_assoc, List.singleton_append, hlen]
            · rw [if_neg (by rw [hlen]; simp at hc ⊢; omega), if_neg hc,
                List.append_assoc, List.singleton_append]

theorem interleaveLoop_eq (k : Nat) (groups : List (String × List QueryResult)) :
    ∀ (fuel i : Nat) (merged : List QueryResult), merged.length < k →
      interleaveLoop k groups i fuel merged
        = merged ++ ((List.range' i fuel).flatMap (row groups)).take (k - merged.length) := by
  intro fuel
  induction fuel with
  | zero => intro i merged _; simp [interleaveLoop]
  | succ fuel2 ih =>
      intro i merged hlt
      simp only [interleaveLoop]
      rw [innerPass_eq k i groups merged hlt]
      by_cases hc : k ≤ merged.length + (row groups i).length
      · rw [if_pos hc]
        have htake : k - merged.length ≤ (row groups i).length := by omega
        simp [List.range'_succ, List.take_append_of_le_length htake]
      · rw [if_neg hc]
        simp only
        have hlt2 : (merged ++ row groups i).length < k := by
          rw [List.length_append]
          omega
        rw [ih (i + 1) _ hlt2, List.range'_succ, List.flatMap_cons,
          List.take_append_eq_append_take,
          List.take_of_length_le (show (row groups i).length ≤ k - merged.length by omega),
          List.append_assoc, List.length_append, Nat.sub_sub]
        simp

/-- With `resultCount ≥ 1` the interleave branch produces exactly the
round-robin sequence truncated to `k`. -/
theorem merge_interleave_eq_take (all : List QueryResult) (k : Nat) (hk : 1 ≤ k) :
    merge_results all k "interleave" = (roundRobinSpec (groupByCollection all)).take k := by
  unfold merge_results
  by_cases he : all.isEmpty
  · have h0 : all = [] := List.isEmpty_iff.mp he
    subst h0
    simp [roundRobinSpec, groupByCollection, maxLen]
  · rw [if_neg he, if_neg (by decide)]
    rw [interleaveLoop_eq k (groupByCollection all) (maxLen (groupByCollection all)) 0 []
      (by simpa using hk)]
    rw [roundRobinSpec, List.range_eq_range']
    simp

/-- C6 (amended). With merge strategy `interleave` and `resultCount ≥ 1`,
`_merge_results` emits exactly the round-robin sequence over collections in
first-seen order, truncated to `resultCount`; in particular, for
collections `A = [a1, a2, a3]` and `B = [b1]` with `resultCount = 4` the
exact output is `[a1, b1, a2, a3]`.  (For `resultCount = 0` the code still
emits one result on non-empty input — see the counterexample.) -/
theorem C6_interleave_round_robin (all : List QueryResult) (k : Nat) (hk : 1 ≤ k) :
    merge_results all k "interleave" = (roundRobinSpec (groupByCollection all)).take k ∧
    merge_results
        [⟨"a1", [], 9, "A", "hybrid", 9, 0⟩, ⟨"a2", [], 8, "A", "hybrid", 8, 0⟩,
          ⟨"a3", [], 7, "A", "hybrid", 7, 0⟩, ⟨"b1", [], 9, "B", "hybrid", 9, 0⟩]
        4 "interleave"
      = [⟨"a1", [], 9, "A", "hybrid", 9, 0⟩, ⟨"b1", [], 9, "B", "hybrid", 9, 0⟩,
          ⟨"a2", [], 8, "A", "hybrid", 8, 0⟩, ⟨"a3", [], 7, "A", "hybrid", 7, 0⟩] :=
  ⟨merge_interleave_eq_take all k hk, by decide⟩

/-- Counterexample to C6 as stated: with `resultCount = 0` the claim's
"round-robin until resultCount results are emitted" predicts the empty
output, but `_merge_results` appends the first collection's first result
before the first `len(merged) >= k` break is evaluated, so one result is
emitted. -/
theorem C6_counterexample :
    merge_results [⟨"a1", [], 1, "A", "hybrid", 1, 0⟩] 0 "interleave"
      ≠ (roundRobinSpec (groupByCollection [⟨"a1", [], 1, "A", "hybrid", 1, 0⟩])).take 0 := by
  decide

/-- Witness for C6 at the specification's own example. -/
theorem C6_interleave_round_robin_witness :
    (1 ≤ 4) ∧
    (merge_results
        [⟨"a1", [], 9, "A", "hybrid", 9, 0⟩, ⟨"a2", [], 8, "A", "hybrid", 8, 0⟩,
          ⟨"a3", [], 7, "A", "hybrid", 7, 0⟩, ⟨"b1", [], 9, "B", "hybrid", 9, 0⟩]
        4 "interleave"
      = (roundRobinSpec (groupByCollection
          [⟨"a1", [], 9, "A", "hybrid", 9, 0⟩, ⟨"a2", [], 8, "A", "hybrid", 8, 0⟩,
            ⟨"a3", [], 7, "A", "hybrid", 7, 0⟩, ⟨"b1", [], 9, "B", "hybrid", 9, 0⟩])).take 4) ∧
    merge_results
        [⟨"a1", [], 9, "A", "hybrid", 9, 0⟩, ⟨"a2", [], 8, "A", "hybrid", 8, 0⟩,
          ⟨"a3", [], 7, "A", "hybrid", 7, 0⟩, ⟨"b1", [], 9, "B", "hybrid", 9, 0⟩]
        4 "interleave"
      = [⟨"a1", [], 9, "A", "hybrid", 9, 0⟩, ⟨"b1", [], 9, "B", "hybrid", 9, 0⟩,
          ⟨"a2", [], 8, "A", "hybrid", 8, 0⟩, ⟨"a3", [], 7, "A", "hybrid", 7, 0⟩] :=
  ⟨by omega,
    (C6_interleave_round_robin
      [⟨"a1", [], 9, "A", "hybrid", 9, 0⟩, ⟨"a2", [], 8, "A", "hybrid", 8, 0⟩,
        ⟨"a3", [], 7, "A", "hybrid", 7, 0⟩, ⟨"b1", [], 9, "B", "hybrid", 9, 0⟩]
      4 (by omega)).1,
    (C6_interleave_round_robin [] 1 (by omega)).2⟩

theorem stableSortDesc_nil {β : Type} (f : β → ℚ) : stableSortDesc f [] = [] := rfl

theorem gather_raw_filter (minRel : ℚ) :
    ∀ (outcomes : List CollectionOutcome) (acc2 : List QueryResult),
      outcomes.foldl (fun acc oc =>
          match query_single_collection_interface minRel oc with
          | .ok rs => acc ++ rs
          | .error _ => acc) (acc2.filter (fun r => minRel ≤ r.relevance_score))
        = (outcomes.foldl (fun acc oc =>
            match oc with
            | .retrieved rs => acc ++ rs
            | .fallback rs => acc ++ rs
            | _ => acc) acc2).filter (fun r => minRel ≤ r.relevance_score) := by
  intro outcomes
  induction outcomes with
  | nil => intro acc2; rfl
  | cons oc rest ih =>
      intro acc2
      cases oc with
      | retrieved rs =>
          simp only [List.foldl_cons, query_single_collection_interface]
          rw [← List.filter_append]
          exact ih (acc2 ++ rs)
      | notFound =>
          simp only [List.foldl_cons, query_single_collection_interface]
          rw [List.append_nil]
          exact ih acc2
      | empty =>
          simp only [List.foldl_cons, query_single_collection_interface]
          rw [List.append_nil]
          exact ih acc2
      | fallback rs =>
          simp only [List.foldl_cons, query_single_collection_interface]
          rw [← List.filter_append]
          exact ih (acc2 ++ rs)
      | fallbackError =>
          simp only [List.foldl_cons, query_single_collection_interface]
          exact ih acc2

/-- The gather loop applies the relevance filter collection by collection;
globally this equals filtering the concatenated unfiltered lists. -/
theorem gatherResults_eq (minRel : ℚ) (outcomes : List CollectionOutcome) :
    gatherResults minRel outcomes
      = (rawResults outcomes).filter (fun r => minRel ≤ r.relevance_score) := by
  unfold gatherResults rawResults
  exact gather_raw_filter minRel outcomes []

/-- C2 (amended). The `minRelevance` floor is applied per collection *before*
merging: the output of `query` equals the merge of the per-collection
filtered lists (equivalently, of the filtered concatenation).  For the
`"best"` strategy this coincides with the claim's merge-then-filter
formulation (sorting commutes with the relevance-floor filter and the
filter keeps a prefix of the sorted list); for `interleave` it does not —
see the counterexample. -/
theorem C2_min_relevance_per_collection (outcomes : List CollectionOutcome)
    (k : Nat) (minRel : ℚ) :
    (∀ strategy : String, queryModel outcomes k minRel strategy
        = merge_results ((rawResults outcomes).filter
            (fun r => minRel ≤ r.relevance_score)) k strategy) ∧
    queryModel outcomes k minRel "best"
      = (merge_results (rawResults outcomes) k "best").filter
          (fun r => minRel ≤ r.relevance_score) := by
  have hg := gatherResults_eq minRel outcomes
  constructor
  · intro strategy
    unfold queryModel
    rw [hg]
  · unfold queryModel
    rw [hg]
    unfold merge_results
    by_cases he : (rawResults outcomes).isEmpty
    · have h0 : rawResults outcomes = [] := List.isEmpty_iff.mp he
      rw [h0]
      simp
    · by_cases he2 : ((rawResults outcomes).filter
          (fun r => minRel ≤ r.relevance_score)).isEmpty
      · have h1 : (rawResults outcomes).filter (fun r => minRel ≤ r.relevance_score) = [] :=
          List.isEmpty_iff.mp he2
        rw [if_pos he2, if_neg he, if_pos rfl,
          filter_take_of_sortedDesc (fun r => r.relevance_score) minRel
            (stableSortDesc (fun r => r.relevance_score) (rawResults outcomes)) k
            (stableSortDesc_pairwise (fun r => r.relevance_score) (rawResults outcomes)),
          ← stableSortDesc_filter_comm (fun r => r.relevance_score) minRel (rawResults outcomes),
          h1, stableSortDesc_nil, List.take_nil]
      · rw [if_neg he2, if_pos rfl, if_neg he, if_pos rfl,
          filter_take_of_sortedDesc (fun r => r.relevance_score) minRel
            (stableSortDesc (fun r => r.relevance_score) (rawResults outcomes)) k
            (stableSortDesc_pairwise (fun r => r.relevance_score) (rawResults outcomes)),
          ← stableSortDesc_filter_comm (fun r => r.relevance_score) minRel (rawResults outcomes)]

/-- Counterexample to C2 as stated: with `interleave`, an item that is
below the relevance floor still occupies its round-robin slot in the
claim's merge-then-filter reading, but not in the code's
filter-then-merge order, and the outputs differ. -/
theorem C2_counterexample :
    queryModel
        [CollectionOutcome.retrieved
            [⟨"a1", [], 0, "A", "hybrid", 0, 0⟩, ⟨"a2", [], 2, "A", "hybrid", 2, 0⟩],
          CollectionOutcome.retrieved [⟨"b1", [], 2, "B", "hybrid", 2, 0⟩]]
        2 1 "interleave"
      ≠ (merge_results
          (rawResults
            [CollectionOutcome.retrieved
                [⟨"a1", [], 0, "A", "hybrid", 0, 0⟩, ⟨"a2", [], 2, "A", "hybrid", 2, 0⟩],
              CollectionOutcome.retrieved [⟨"b1", [], 2, "B", "hybrid", 2, 0⟩]])
          2 "interleave").filter (fun r => (1:ℚ) ≤ r.relevance_score) := by
  decide

/-- The outcomes that contribute nothing: a missing collection, an empty
collection, and a fallback that itself raised. -/
def CollectionOutcome.isFailure : CollectionOutcome → Bool
  | .notFound => true
  | .empty => true
  | .fallbackError => true
  | _ => false

theorem gather_skip_failures (minRel : ℚ) :
    ∀ (outcomes : List CollectionOutcome) (acc : List QueryResult),
      outcomes.foldl (fun acc oc =>
          match query_single_collection_interface minRel oc with
          | .ok rs => acc ++ rs
          | .error _ => acc) acc
        = (outcomes.filter (fun o => ! o.isFailure)).foldl (fun acc oc =>
            match query_single_collection_interface minRel oc with
            | .ok rs => acc ++ rs
            | .error _ => acc) acc := by
  intro outcomes
  induction outcomes with
  | nil => intro acc; rfl
  | cons oc rest ih =>
      intro acc
      cases oc with
      | retrieved rs =>
          simp only [List.foldl_cons, List.filter_cons, CollectionOutcome.isFailure,
            Bool.not_false, if_pos]
          exact ih _
      | fallback rs =>
          simp only [List.foldl_cons, List.filter_cons, CollectionOutcome.isFailure,
            Bool.not_false, if_pos]
          exact ih _
      | notFound =>
          simp only [List.foldl_cons, List.filter_cons, CollectionOutcome.isFailure,
            Bool.not_true, query_single_collection_interface]
          rw [List.append_nil]
          exact ih acc
      | empty =>
          simp only [List.foldl_cons, List.filter_cons, CollectionOutcome.isFailure,
            Bool.not_true, query_single_collection_interface]
          rw [List.append_nil]
          exact ih acc
      | fallbackError =>
          simp only [List.foldl_cons, List.filter_cons, CollectionOutcome.isFailure,
            Bool.not_true, query_single_collection_interface]
          exact ih acc

/-- C4. A collection whose retrieval fails (not found, empty, or a
retrieval exception whose vector-only fallback also raised) contributes no
results: `query`'s output is identical to the output computed from the
non-failing collections alone, and when every collection fails the output
is empty.  `queryModel` is total: the failure is absorbed, never
re-raised. -/
theorem C4_partial_failure_isolation (outcomes : List CollectionOutcome) (k : Nat)
    (minRel : ℚ) (strategy : String) :
    queryModel outcomes k minRel strategy
        = queryModel (outcomes.filter (fun o => ! o.isFailure)) k minRel strategy ∧
    ((∀ o ∈ outcomes, o.isFailure) → queryModel outcomes k minRel strategy = []) := by
  have hgather : gatherResults minRel outcomes
      = gatherResults minRel (outcomes.filter (fun o => ! o.isFailure)) := by
    unfold gatherResults
    exact gather_skip_failures minRel outcomes []
  constructor
  · unfold queryModel
    rw [hgather]
  · intro hall
    have hfil : outcomes.filter (fun o => ! o.isFailure) = [] := by
      refine List.filter_eq_nil_iff.mpr ?_
      intro o ho
      rw [hall o ho]
      simp
    unfold queryModel
    rw [hgather, hfil]
    rfl

/-- Witness for C4: two failing collections next to a successful one, and
the all-failures case. -/
theorem C4_partial_failure_isolation_witness :
    (queryModel
        [CollectionOutcome.retrieved [⟨"d", [], 2, "A", "hybrid", 2, 0⟩],
          CollectionOutcome.notFound, CollectionOutcome.fallbackError]
        5 0 "interleave"
      = queryModel
          (([CollectionOutcome.retrieved [⟨"d", [], 2, "A", "hybrid", 2, 0⟩],
            CollectionOutcome.notFound, CollectionOutcome.fallbackError].filter
              (fun o => ! o.isFailure)))
          5 0 "interleave") ∧
    ((∀ o ∈ [CollectionOutcome.notFound, CollectionOutcome.empty,
        CollectionOutcome.fallbackError], o.isFailure) →
      queryModel [CollectionOutcome.notFound, CollectionOutcome.empty,
        CollectionOutcome.fallbackError] 5 0 "best" = []) ∧
    queryModel [CollectionOutcome.notFound, CollectionOutcome.empty,
        CollectionOutcome.fallbackError] 5 0 "best" = [] :=
  ⟨(C4_partial_failure_isolation _ 5 0 "interleave").1,
    (C4_partial_failure_isolation _ 5 0 "best").2,
    (C4_partial_failure_isolation _ 5 0 "best").2 (by decide)⟩

theorem rrfScore_bounds {α : Type} [DecidableEq α] (K : ℚ) (hK : 0 < K) :
    ∀ (lists : List (List α)) (ws : List ℚ), (∀ w ∈ ws, 0 ≤ w) →
      ∀ key : α, 0 ≤ rrfScore K lists ws key ∧ rrfScore K lists ws key ≤ ws.sum / K := by
  intro lists
  induction lists with
  | nil =>
      intro ws hw key
      constructor
      · simp [rrfScore]
      · have h1 : rrfScore K [] ws key = 0 := by simp [rrfScore]
        rw [h1]
        exact div_nonneg (List.sum_nonneg hw) hK.le
  | cons l rest ih =>
      intro ws hw key
      cases ws with
      | nil =>
          constructor
          · simp [rrfScore]
          · have h1 : rrfScore K (l :: rest) [] key = 0 := by simp [rrfScore]
            rw [h1]
            simp
      | cons w ws2 =>
          have hw0 : 0 ≤ w := hw w (List.mem_cons_self w ws2)
          have hws2 : ∀ w2 ∈ ws2, 0 ≤ w2 :=
            fun w2 h => hw w2 (List.mem_cons.mpr (Or.inr h))
          have ihr := ih ws2 hws2 key
          have heq : rrfScore K (l :: rest) (w :: ws2) key
              = (if key ∈ l then w * (1 / ((l.indexOf key : ℚ) + K)) else 0)
                + rrfScore K rest ws2 key := by
            simp only [rrfScore, List.zip_cons_cons, List.map_cons, List.sum_cons]
          have hlb : 0 ≤ (if key ∈ l then w * (1 / ((l.indexOf key : ℚ) + K)) else 0) := by
            by_cases hm : key ∈ l
            · rw [if_pos hm]
              refine mul_nonneg hw0 ?_
              refine le_of_lt (one_div_pos.mpr ?_)
              exact add_pos_of_nonneg_of_pos (Nat.cast_nonneg _) hK
            · rw [if_neg hm]
          have hub : (if key ∈ l then w * (1 / ((l.indexOf key : ℚ) + K)) else 0) ≤ w / K := by
            by_cases hm : key ∈ l
            · rw [if_pos hm]
              have h1 : 1 / ((l.indexOf key : ℚ) + K) ≤ 1 / K :=
                one_div_le_one_div_of_le hK (le_add_of_nonneg_left (Nat.cast_nonneg _))
              calc w * (1 / ((l.indexOf key : ℚ) + K)) ≤ w * (1 / K) :=
                    mul_le_mul_of_nonneg_left h1 hw0
                _ = w / K := by ring
            · rw [if_neg hm]
              exact div_nonneg hw0 hK.le
          rw [heq]
          constructor
          · exact add_nonneg hlb ihr.1
          · calc (if key ∈ l then w * (1 / ((l.indexOf key : ℚ) + K)) else 0)
                  + rrfScore K rest ws2 key
                ≤ w / K + ws2.sum / K := add_le_add hub ihr.2
              _ = (w + ws2.sum) / K := div_add_div_same w ws2.sum K
              _ = (w :: ws2).sum / K := by rw [List.sum_cons]

/-- One row of a Chroma vector query result, as consumed by
`_query_single_collection` (lines 328-342): document text, metadata, and
the reported distance. -/
structure VectorRow where
  content : String
  metadata : List (String × String)
  distance : ℚ
deriving DecidableEq

/-- The result conversion of the vector-only fallback
`_query_single_collection`: `relevance = 1 - distance`, `source_type`
`"vector"`, no clamping. -/
def convertVectorResults (collection : String) (rows : List VectorRow) : List QueryResult :=
  rows.map (fun row =>
    { content := row.content
      metadata := row.metadata
      relevance_score := 1 - row.distance
      collection_name := collection
      source_type := "vector"
      base_relevance := 1 - row.distance
      keyword_boost := 0 })

/-- The fallback path's return value: converted rows filtered by
`res.relevance_score >= min_relevance` (line 348). -/
def query_single_collection_fallback (collection : String) (rows : List VectorRow)
    (minRel : ℚ) : List QueryResult :=
  (convertVectorResults collection rows).filter (fun r => minRel ≤ r.relevance_score)

/-- The cache-hit path (lines 210-214): the stored unfiltered list is
served after re-applying the caller's relevance threshold. -/
def query_single_collection_cache_hit (cached : List QueryResult) (minRel : ℚ) :
    List QueryResult :=
  cached.filter (fun r => minRel ≤ r.relevance_score)

/-- C5 (amended). On the hybrid path every fused relevance score lies
in `[0, 1]` (indeed in `[0, (sum of weights)/K]`, given the factory's
non-negative weights summing to at most `K`).  On the vector-only fallback
path the score is `1 - distance` with no clamping: the returned results
lie in `[0, 1]` provided the relevance floor is non-negative (it removes
scores below `0`) and every reported distance is non-negative (otherwise
the score exceeds `1` — see the counterexample).  A cache hit serves
exactly the stored results that clear the caller's threshold. -/
theorem C5_relevance_score_range {α : Type} [DecidableEq α] (K : ℚ) (topK : Nat)
    (outcomes : List (Except Unit (List α))) (ws : List ℚ)
    (collection : String) (rows : List VectorRow) (minRel : ℚ)
    (cached : List QueryResult)
    (hK : 0 < K) (hw : ∀ w ∈ ws, 0 ≤ w) (hsum : ws.sum ≤ K)
    (hnd : ∀ l ∈ processedResults outcomes, l.Nodup) :
    (∀ p ∈ retrieveModel K topK outcomes ws, 0 ≤ p.2 ∧ p.2 ≤ 1) ∧
    (0 ≤ minRel → (∀ row ∈ rows, 0 ≤ row.distance) →
      ∀ r ∈ query_single_collection_fallback collection rows minRel,
        0 ≤ r.relevance_score ∧ r.relevance_score ≤ 1) ∧
    (∀ r ∈ query_single_collection_cache_hit cached minRel,
      r ∈ cached ∧ minRel ≤ r.relevance_score) := by
  refine ⟨?_, ?_, ?_⟩
  · intro p hp
    unfold retrieveModel at hp
    by_cases ho : outcomes.isEmpty
    · rw [if_pos ho] at hp
      cases hp
    · rw [if_neg ho] at hp
      have hp2 : p ∈ fuse_results K (processedResults outcomes) ws :=
        List.mem_of_mem_take hp
      unfold fuse_results at hp2
      by_cases hpe : (processedResults outcomes).isEmpty
      · rw [if_pos hpe] at hp2
        cases hp2
      · rw [if_neg hpe] at hp2
        have hp3 : p ∈ fuseAccum K (processedResults outcomes) ws :=
          (stableSortDesc_perm (fun p => p.2) _).mem_iff.mp hp2
        have hscore := fuseAccum_score K (processedResults outcomes) ws hnd p hp3
        have hbounds := rrfScore_bounds K hK (processedResults outcomes) ws hw p.1
        rw [hscore]
        refine ⟨hbounds.1, hbounds.2.trans ?_⟩
        rw [div_le_one hK]
        exact hsum
  · intro hmin hdist r hr
    unfold query_single_collection_fallback at hr
    have hr2 := List.mem_filter.mp hr
    have hle : minRel ≤ r.relevance_score := of_decide_eq_true hr2.2
    refine ⟨hmin.trans hle, ?_⟩
    unfold convertVectorResults at hr2
    obtain ⟨row, hrow, heq⟩ := List.mem_map.mp hr2.1
    have : r.relevance_score = 1 - row.distance := by rw [← heq]
    rw [this]
    have := hdist row hrow
    linarith
  · intro r hr
    have hr2 := List.mem_filter.mp hr
    exact ⟨hr2.1, of_decide_eq_true hr2.2⟩

/-- Counterexample to C5 as stated: a (possible) negative reported
distance yields `relevance_score = 2`, which passes the default
`min_relevance = 0` filter and leaves the claimed interval `[0, 1]`. -/
theorem C5_counterexample :
    ∃ r ∈ query_single_collection_fallback "c" [⟨"doc", [], -1⟩] 0,
      ¬ (0 ≤ r.relevance_score ∧ r.relevance_score ≤ 1) := by
  have hval : query_single_collection_fallback "c" [⟨"doc", [], -1⟩] 0
      = [⟨"doc", [], 1 - (-1), "c", "vector", 1 - (-1), 0⟩] := by
    unfold query_single_collection_fallback convertVectorResults
    rw [List.map_singleton, List.filter_cons]
    norm_num
  rw [hval]
  refine ⟨⟨"doc", [], 1 - (-1), "c", "vector", 1 - (-1), 0⟩, List.mem_singleton_self _, ?_⟩
  norm_num

/-- Witness for C5 at the factory defaults (`k = 60`, weights
`[0.7, 0.3]`). -/
theorem C5_relevance_score_range_witness :
    ((0:ℚ) < 60 ∧ (∀ w ∈ ([(7:ℚ)/10, 3/10] : List ℚ), 0 ≤ w) ∧
      ([(7:ℚ)/10, 3/10] : List ℚ).sum ≤ 60 ∧
      (∀ l ∈ processedResults [Except.ok ["a", "b"], Except.ok ["b"]], l.Nodup)) ∧
    ((∀ p ∈ retrieveModel 60 10 [Except.ok ["a", "b"], Except.ok ["b"]]
        [(7:ℚ)/10, 3/10], 0 ≤ p.2 ∧ p.2 ≤ 1) ∧
      (0 ≤ (0:ℚ) → (∀ row ∈ [(⟨"doc", [], 1⟩ : VectorRow)], 0 ≤ row.distance) →
        ∀ r ∈ query_single_collection_fallback "c" [⟨"doc", [], 1⟩] 0,
          0 ≤ r.relevance_score ∧ r.relevance_score ≤ 1) ∧
      (∀ r ∈ query_single_collection_cache_hit [] 0, r ∈ ([] : List QueryResult)
        ∧ (0:ℚ) ≤ r.relevance_score)) :=
  ⟨⟨by norm_num, by intro w hw; fin_cases hw <;> norm_num, by norm_num, by decide⟩,
    C5_relevance_score_range 60 10 [Except.ok ["a", "b"], Except.ok ["b"]]
      [(7:ℚ)/10, 3/10] "c" [⟨"doc", [], 1⟩] 0 []
      (by norm_num) (by intro w hw; fin_cases hw <;> norm_num) (by norm_num) (by decide)⟩

/-!
Section: BM25 tokenizer and index manager (`bm25_index.py`)

`_tokenize_text` lowercases, joins the `§`-plus-digits pattern across
whitespace (`re.sub(r'§\s+(\d+)', r'§\1', text)`), scans tokens with
`re.findall(r'§\d+|[\w]+', text)`, and appends extra tokens.  The three
regex phases are modelled by direct left-to-right scanners (the greedy
quantifiers need no backtracking because the classes are pairwise
disjoint here).

Python's character classes `\s`, `\d`, `\w` and the method `str.isdigit`
are Unicode-aware; the scanners below use their ASCII restrictions
(`Char.isWhitespace`, `Char.isDigit`, alphanumeric-or-underscore).  On
any input drawn from `asciiFragment` — the ASCII range without vertical
tab and form feed, plus the sigil `§` itself — each Lean predicate
agrees with the corresponding Python class character by character
(`§` belongs to none of the classes in either reading), and
`Char.toLower` agrees with `str.lower` and keeps the fragment closed, so
on such inputs the model computes exactly what the program computes.  On
wider Unicode input the program's classes are strictly larger (`\s` also
matches NBSP, `\d` and `str.isdigit` also match Arabic-Indic digits such
as `٢`, `\w` matches all Unicode word characters), which the scanners do
not model; every universally quantified theorem about the tokenizer
therefore carries an `asciiFragment` hypothesis on its input text, and
the concrete evaluations use ASCII inputs.
-/

/-- The ASCII restriction of Python's Unicode `\w`: letters, digits,
underscore. -/
def isWordChar (c : Char) : Bool := c.isAlphanum || c == '_'

/-- Model of `re.sub(r'§\s+(\d+)', r'§\1', text)` on `asciiFragment` input,
where `Char.isWhitespace` and `Char.isDigit` coincide with Python's
Unicode-aware `\s` and `\d`: scan left to right; at a `§` followed by
one or more whitespace characters followed by one or more digits, drop
the whitespace and continue after the digits; otherwise advance one
character. -/
def collapseSigilSpace : List Char → List Char
  | [] => []
  | c :: rest =>
      if c = '§' then
        if (rest.takeWhile Char.isWhitespace).isEmpty then
          c :: collapseSigilSpace rest
        else
          let afterWs := rest.dropWhile Char.isWhitespace
          let ds := afterWs.takeWhile Char.isDigit
          if ds.isEmpty then c :: collapseSigilSpace rest
          else '§' :: (ds ++ collapseSigilSpace (afterWs.drop ds.length))
      else c :: collapseSigilSpace rest
termination_by l => l.length
decreasing_by
  · simp
  · simp
  · simp only [List.length_cons]
    have h1 : (List.dropWhile Char.isWhitespace rest).length ≤ rest.length :=
      (List.dropWhile_sublist _).length_le
    have h2 : ((List.dropWhile Char.isWhitespace rest).drop
        (List.takeWhile Char.isDigit (List.dropWhile Char.isWhitespace rest)).length).length
        ≤ (List.dropWhile Char.isWhitespace rest).length := by
      rw [List.length_drop]
      omega
    omega
  · simp

/-- Model of `re.findall(r'§\d+|[\w]+', text)` on `asciiFragment` input,
where `Char.isDigit` and `isWordChar` coincide with Python's
Unicode-aware `\d` and `\w`: scan left to right; at a `§` followed by at
least one digit emit the joined token, else at a word character emit the
maximal word run, else advance. -/
def findTokens : List Char → List (List Char)
  | [] => []
  | c :: rest =>
      if c = '§' then
        let ds := rest.takeWhile Char.isDigit
        if ds.isEmpty then findTokens rest
        else ('§' :: ds) :: findTokens (rest.drop ds.length)
      else if isWordChar c then
        (c :: rest.takeWhile isWordChar) :: findTokens (rest.dropWhile isWordChar)
      else findTokens rest
termination_by l => l.length
decreasing_by
  · simp
  · simp only [List.length_cons]
    have h1 : (rest.drop (List.takeWhile Char.isDigit rest).length).length ≤ rest.length := by
      rw [List.length_drop]
      omega
    omega
  · simp only [List.length_cons]
    have h1 : (List.dropWhile isWordChar rest).length ≤ rest.length :=
      (List.dropWhile_sublist _).length_le
    omega
  · simp

/-- The extra-token loop of `_tokenize_text`: each token is appended; a
`§`-prefixed token whose tail is all digits additionally yields the bare
number; a purely numeric token of length `> 1` additionally yields each
digit `d` with `d != '0' or len(token) == 1` (the second disjunct is dead
in this branch).  Python's `token.isdigit()` is modelled as non-empty
and all ASCII digits, its restriction to `asciiFragment` tokens (on
wider Unicode `str.isdigit` also accepts non-ASCII digit characters). -/
def addExtras : List (List Char) → List (List Char)
  | [] => []
  | t :: rest =>
      if t.head? = some '§' then
        if !(t.drop 1).isEmpty && (t.drop 1).all Char.isDigit then
          t :: (t.drop 1) :: addExtras rest
        else t :: addExtras rest
      else if (!t.isEmpty && t.all Char.isDigit) && decide (1 < t.length) then
        t :: (((t.filter (fun d => (d != '0') || (t.length == 1))).map (fun d => [d]))
          ++ addExtras rest)
      else t :: addExtras rest

/-- Model of `_tokenize_text`: lowercase, collapse the sigil-whitespace-digits
pattern, scan tokens, append extras.  Exact on texts all of whose
characters satisfy `asciiFragment`. -/
def tokenize_text (text : List Char) : List (List Char) :=
  addExtras (findTokens (collapseSigilSpace (text.map Char.toLower)))

/-- A chunk of the lexical index: stable identifier and text
(`llama_index` `TextNode`, as used by `BM25IndexManager`). -/
structure TextNode where
  id_ : String
  text : String
deriving DecidableEq

/-- The in-memory state of `BM25IndexManager`: the ordered chunk list, the
identifier-to-position dict, and the scoring corpus rebuilt from the full
chunk list (`corpus_tokens`, fed to `BM25Okapi`). -/
structure BM25State where
  nodes : List TextNode
  node_id_map : List (String × Nat)
  corpus_tokens : List (List (List Char))
deriving DecidableEq

/-- One iteration of the `for node in new_nodes` loop of `add_nodes`:
a fresh identifier is appended (`node_id_map[node.id_] = len(nodes) - 1`
after the append, i.e. the old length); an existing identifier's node is
replaced in place. -/
def addNode (s : BM25State) (node : TextNode) : BM25State :=
  match s.node_id_map.lookup node.id_ with
  | none =>
      { s with
        nodes := s.nodes ++ [node]
        node_id_map := s.node_id_map ++ [(node.id_, s.nodes.length)] }
  | some idx => { s with nodes := s.nodes.set idx node }

/-- Model of `add_nodes`: no-op on an empty batch; otherwise upsert every node and
rebuild the scoring corpus from the full current chunk list. -/
def add_nodes (s : BM25State) (new_nodes : List TextNode) : BM25State :=
  if new_nodes.isEmpty then s
  else
    let s2 := new_nodes.foldl addNode s
    { s2 with corpus_tokens := s2.nodes.map (fun n => tokenize_text n.text.toList) }

/-- Well-formedness maintained by the manager: the dict maps exactly each
stored identifier to its position, and identifiers are unique. -/
def BM25State.WF (s : BM25State) : Prop :=
  s.node_id_map = s.nodes.enum.map (fun p => (p.2.id_, p.1)) ∧
    (s.nodes.map (fun n => n.id_)).Nodup

theorem lookup_mem {κ ν : Type} [DecidableEq κ] :
    ∀ (l : List (κ × ν)) (k : κ) (v : ν), l.lookup k = some v → (k, v) ∈ l := by
  intro l
  induction l with
  | nil => intro k v h; cases h
  | cons p rest ih =>
      intro k v h
      simp only [List.lookup] at h
      cases hbeq : (k == p.1) with
      | true =>
          rw [hbeq] at h
          simp only [Option.some.injEq] at h
          have hk : k = p.1 := eq_of_beq hbeq
          have hpe : (k, v) = p := by rw [hk, ← h]
          rw [hpe]
          exact List.mem_cons_self p rest
      | false =>
          rw [hbeq] at h
          exact List.mem_cons.mpr (Or.inr (ih k v h))

theorem wf_lookup_lt (s : BM25State) (hwf : s.WF) (id : String) (i : Nat)
    (h : s.node_id_map.lookup id = some i) : i < s.nodes.length := by
  rw [hwf.1] at h
  have hmem := lookup_mem _ id i h
  obtain ⟨⟨qi, qn⟩, hq, hq2⟩ := List.mem_map.mp hmem
  have hq1 : qi = i := congrArg Prod.snd hq2
  have h3 := List.mem_enumFrom (show (qi, qn) ∈ List.enumFrom 0 s.nodes from hq)
  omega

/-- C7. The operation `add_nodes` is an upsert by identifier: adding a chunk whose
identifier is already indexed replaces that chunk in place — corpus size
unchanged, the stored node at its position becomes the new one, every
other position (hence every other identifier's entry and text) is
untouched, and the identifier map is unchanged; a chunk with a fresh
identifier is appended at the end, with its map entry pointing at the new
last position. -/
theorem C7_add_nodes_upsert (s : BM25State) (c : TextNode) (hwf : s.WF) :
    (∀ i, s.node_id_map.lookup c.id_ = some i →
      ((add_nodes s [c]).nodes.length = s.nodes.length ∧
        (add_nodes s [c]).nodes[i]? = some c ∧
        (∀ j, j ≠ i → (add_nodes s [c]).nodes[j]? = s.nodes[j]?) ∧
        (add_nodes s [c]).node_id_map = s.node_id_map)) ∧
    (s.node_id_map.lookup c.id_ = none →
      ((add_nodes s [c]).nodes = s.nodes ++ [c] ∧
        (add_nodes s [c]).node_id_map = s.node_id_map ++ [(c.id_, s.nodes.length)])) := by
  constructor
  · intro i hl
    have hi : i < s.nodes.length := wf_lookup_lt s hwf c.id_ i hl
    have hstep : add_nodes s [c] =
        { nodes := s.nodes.set i c
          node_id_map := s.node_id_map
          corpus_tokens := (s.nodes.set i c).map (fun n => tokenize_text n.text.toList) } := by
      unfold add_nodes
      rw [if_neg (by simp)]
      simp only [List.foldl_cons, List.foldl_nil, addNode, hl]
    rw [hstep]
    refine ⟨List.length_set s.nodes i c, List.getElem?_set_self hi, ?_, rfl⟩
    intro j hj
    exact List.getElem?_set_ne (fun hc => hj hc.symm)
  · intro hl
    have hstep : add_nodes s [c] =
        { nodes := s.nodes ++ [c]
          node_id_map := s.node_id_map ++ [(c.id_, s.nodes.length)]
          corpus_tokens := (s.nodes ++ [c]).map (fun n => tokenize_text n.text.toList) } := by
      unfold add_nodes
      rw [if_neg (by simp)]
      simp only [List.foldl_cons, List.foldl_nil, addNode, hl]
    rw [hstep]
    exact ⟨rfl, rfl⟩

/-- Witness for C7: a two-chunk index, re-adding id `"n2"` with new text
and adding a fresh id `"n3"`. -/
theorem C7_add_nodes_upsert_witness :
    (BM25State.WF ⟨[⟨"n1", "foo"⟩, ⟨"n2", "bar"⟩], [("n1", 0), ("n2", 1)], []⟩) ∧
    ((add_nodes ⟨[⟨"n1", "foo"⟩, ⟨"n2", "bar"⟩], [("n1", 0), ("n2", 1)], []⟩
        [⟨"n2", "baz"⟩]).nodes.length
      = ([⟨"n1", "foo"⟩, ⟨"n2", "bar"⟩] : List TextNode).length ∧
      (add_nodes ⟨[⟨"n1", "foo"⟩, ⟨"n2", "bar"⟩], [("n1", 0), ("n2", 1)], []⟩
        [⟨"n2", "baz"⟩]).nodes[1]? = some ⟨"n2", "baz"⟩ ∧
      (∀ j, j ≠ 1 →
        (add_nodes ⟨[⟨"n1", "foo"⟩, ⟨"n2", "bar"⟩], [("n1", 0), ("n2", 1)], []⟩
          [⟨"n2", "baz"⟩]).nodes[j]? = ([⟨"n1", "foo"⟩, ⟨"n2", "bar"⟩] : List TextNode)[j]? ∧
      True) ∧
      (add_nodes ⟨[⟨"n1", "foo"⟩, ⟨"n2", "bar"⟩], [("n1", 0), ("n2", 1)], []⟩
        [⟨"n2", "baz"⟩]).node_id_map = [("n1", 0), ("n2", 1)]) ∧
    ((add_nodes ⟨[⟨"n1", "foo"⟩, ⟨"n2", "bar"⟩], [("n1", 0), ("n2", 1)], []⟩
        [⟨"n3", "qux"⟩]).nodes = [⟨"n1", "foo"⟩, ⟨"n2", "bar"⟩, ⟨"n3", "qux"⟩] ∧
      (add_nodes ⟨[⟨"n1", "foo"⟩, ⟨"n2", "bar"⟩], [("n1", 0), ("n2", 1)], []⟩
        [⟨"n3", "qux"⟩]).node_id_map = [("n1", 0), ("n2", 1), ("n3", 2)]) := by
  have hwf : BM25State.WF ⟨[⟨"n1", "foo"⟩, ⟨"n2", "bar"⟩], [("n1", 0), ("n2", 1)], []⟩ := by
    constructor
    · rfl
    · decide
  have h1 := (C7_add_nodes_upsert
      ⟨[⟨"n1", "foo"⟩, ⟨"n2", "bar"⟩], [("n1", 0), ("n2", 1)], []⟩ ⟨"n2", "baz"⟩ hwf).1
      1 (by rfl)
  have h2 := (C7_add_nodes_upsert
      ⟨[⟨"n1", "foo"⟩, ⟨"n2", "bar"⟩], [("n1", 0), ("n2", 1)], []⟩ ⟨"n3", "qux"⟩ hwf).2
      (by rfl)
  exact ⟨hwf, ⟨h1.1, h1.2.1, fun j hj => ⟨h1.2.2.1 j hj, trivial⟩, h1.2.2.2⟩, h2.1, h2.2⟩

/-- Witness for C2's amended statement at a concrete one-collection
query. -/
theorem C2_min_relevance_per_collection_witness :
    (queryModel [CollectionOutcome.retrieved [⟨"x", [], 2, "A", "hybrid", 2, 0⟩]] 3 1 "best"
        = merge_results
            ((rawResults [CollectionOutcome.retrieved [⟨"x", [], 2, "A", "hybrid", 2, 0⟩]]).filter
              (fun r => (1:ℚ) ≤ r.relevance_score)) 3 "best") ∧
    (queryModel [CollectionOutcome.retrieved [⟨"x", [], 2, "A", "hybrid", 2, 0⟩]] 3 1 "best"
        = (merge_results
            (rawResults [CollectionOutcome.retrieved [⟨"x", [], 2, "A", "hybrid", 2, 0⟩]])
            3 "best").filter (fun r => (1:ℚ) ≤ r.relevance_score)) :=
  ⟨(C2_min_relevance_per_collection
      [CollectionOutcome.retrieved [⟨"x", [], 2, "A", "hybrid", 2, 0⟩]] 3 1).1 "best",
    (C2_min_relevance_per_collection
      [CollectionOutcome.retrieved [⟨"x", [], 2, "A", "hybrid", 2, 0⟩]] 3 1).2⟩
